import Mathlib

/-!
Verification of `generate_vpm_index.py`: a shallow embedding in Lean 4 of the
VPM index generator (Version Extractor, Metadata Reader, Package Scanner and
Index Builder), together with theorems settling the specification's claims.

Modelling conventions:
* Python/JSON values are modelled by the inductive type `Json`; the Python
  value `None` and the JSON value `null` coincide in this pipeline (both are
  the Python object `None`) and are both modelled by `Json.null`.
* JSON numbers are modelled as `Int` (no claim depends on float values).
* Strings are handled through `List Char` based helpers (`strStartsWith`,
  `strEndsWith`) that model Python's `str.startswith` / `str.endswith`;
  this keeps every definition kernel-reducible.
* Fallible code returns `Option`; an exception that escapes the scanner is
  modelled by `Except PyExn`.
-/

/-- JSON / Python values as produced by `json.loads`.  `Json.null` stands for
the Python object `None` (both for JSON `null` and for Python's error
sentinel, which the source conflates). -/
inductive Json where
  | null : Json
  | bool : Bool → Json
  | num : Int → Json
  | str : String → Json
  | arr : List Json → Json
  | obj : List (String × Json) → Json

/-- Exceptions that the scanner can let escape (see `scan_packages`). -/
inductive PyExn where
  /-- Python `AttributeError`: `.get` called on a non-dict value. -/
  | attributeError : PyExn
  /-- Python `TypeError`: unhashable value used as a dict key. -/
  | typeError : PyExn
deriving DecidableEq

/-- Models Python `str.startswith`. -/
def strStartsWith (s pre : String) : Bool :=
  pre.data.isPrefixOf s.data

/-- Models Python `str.endswith`. -/
def strEndsWith (s suf : String) : Bool :=
  suf.data.isSuffixOf s.data

/-- Models Python `repr` on the values of this pipeline.  String
escaping/quote-switching of Python's `repr` is not reproduced: no claim
depends on the repr of strings inside containers. -/
def pyRepr : Json → String
  | .null => "None"
  | .bool true => "True"
  | .bool false => "False"
  | .num n => toString n
  | .str s => "'" ++ s ++ "'"
  | .arr l => "[" ++ String.intercalate ", " (l.attach.map fun x => pyRepr x.1) ++ "]"
  | .obj l =>
      "\x7b" ++
        String.intercalate ", "
          (l.attach.map fun kv => "'" ++ kv.1.1 ++ "': " ++ pyRepr kv.1.2) ++
      "\x7d"
decreasing_by
  · have := List.sizeOf_lt_of_mem x.2
    simp only [Json.arr.sizeOf_spec]
    omega
  · obtain ⟨⟨a, b⟩, hm⟩ := kv
    have := List.sizeOf_lt_of_mem hm
    simp only [Prod.mk.sizeOf_spec, Json.obj.sizeOf_spec] at this ⊢
    omega

/-- Models Python `str(x)` as used by `str.format` when substituting a value
into the URL template: identity on strings, `repr` otherwise
(`str(None) = "None"`). -/
def pyStr : Json → String
  | .null => "None"
  | .bool true => "True"
  | .bool false => "False"
  | .num n => toString n
  | .str s => s
  | j => pyRepr j

/-- Models Python truthiness (`if not package_name`) on JSON values. -/
def pyTruthy : Json → Bool
  | .null => false
  | .bool b => b
  | .num n => !(n == 0)
  | .str s => !(s == "")
  | .arr l => !l.isEmpty
  | .obj l => !l.isEmpty

/-- Models Python hashability: lists and dicts are unhashable and raise
`TypeError` when used as dict keys. -/
def pyHashable : Json → Bool
  | .arr _ => false
  | .obj _ => false
  | _ => true

/-- Models Python `==` on the scalar values that can reach the package dict as
keys (containers raise `TypeError` on hashing before any comparison happens,
so their comparison behaviour is irrelevant to the scanner).  Python's bools
are numbers: `True == 1` and `False == 0`, with equal hashes, so a bool key
and the corresponding integer key address the same dict entry. -/
def jsonKeyEq : Json → Json → Bool
  | .null, .null => true
  | .bool a, .bool b => a == b
  | .num a, .num b => a == b
  | .str a, .str b => a == b
  | .bool a, .num b => (if a then (1 : Int) else 0) == b
  | .num a, .bool b => a == (if b then (1 : Int) else 0)
  | _, _ => false

/-- Models Python `dict.get(k)` on a parsed JSON object: the value at `k`, or
`None` (`Json.null`) when the key is missing.  `json.loads` deduplicates keys,
so first-match lookup is the dict lookup. -/
def pyGet (kvs : List (String × Json)) (k : String) : Json :=
  (kvs.lookup k).getD .null

/-- The code-point ranges of the Unicode decimal digits (general category
Nd, Unicode 15.0/15.1, the database of current CPython releases): the
characters Python's `\d` matches in a str pattern without `re.ASCII`. -/
def ndRanges : List (Nat × Nat) :=
  [(0x30, 0x39), (0x660, 0x669), (0x6F0, 0x6F9), (0x7C0, 0x7C9),
   (0x966, 0x96F), (0x9E6, 0x9EF), (0xA66, 0xA6F), (0xAE6, 0xAEF),
   (0xB66, 0xB6F), (0xBE6, 0xBEF), (0xC66, 0xC6F), (0xCE6, 0xCEF),
   (0xD66, 0xD6F), (0xDE6, 0xDEF), (0xE50, 0xE59), (0xED0, 0xED9),
   (0xF20, 0xF29), (0x1040, 0x1049), (0x1090, 0x1099), (0x17E0, 0x17E9),
   (0x1810, 0x1819), (0x1946, 0x194F), (0x19D0, 0x19D9), (0x1A80, 0x1A89),
   (0x1A90, 0x1A99), (0x1B50, 0x1B59), (0x1BB0, 0x1BB9), (0x1C40, 0x1C49),
   (0x1C50, 0x1C59), (0xA620, 0xA629), (0xA8D0, 0xA8D9), (0xA900, 0xA909),
   (0xA9D0, 0xA9D9), (0xA9F0, 0xA9F9), (0xAA50, 0xAA59), (0xABF0, 0xABF9),
   (0xFF10, 0xFF19), (0x104A0, 0x104A9), (0x10D30, 0x10D39), (0x11066, 0x1106F),
   (0x110F0, 0x110F9), (0x11136, 0x1113F), (0x111D0, 0x111D9), (0x112F0, 0x112F9),
   (0x11450, 0x11459), (0x114D0, 0x114D9), (0x11650, 0x11659), (0x116C0, 0x116C9),
   (0x11730, 0x11739), (0x118E0, 0x118E9), (0x11950, 0x11959), (0x11C50, 0x11C59),
   (0x11D50, 0x11D59), (0x11DA0, 0x11DA9), (0x11F50, 0x11F59), (0x16A60, 0x16A69),
   (0x16AC0, 0x16AC9), (0x16B50, 0x16B59), (0x1D7CE, 0x1D7FF), (0x1E140, 0x1E149),
   (0x1E2F0, 0x1E2F9), (0x1E4F0, 0x1E4F9), (0x1E950, 0x1E959), (0x1FBF0, 0x1FBF9)]

/-- Models the regex digit class `\d` of Python's `re` on str patterns: any
Unicode decimal digit (category Nd), not only ASCII `0`-`9`. -/
def isPyDigit (c : Char) : Bool :=
  ndRanges.any (fun r => decide (r.1 ≤ c.toNat ∧ c.toNat ≤ r.2))

/-- Predicate: `cs` is a non-empty sequence of `\d` digits, the digit class
of the version regex. -/
def allDigits (cs : List Char) : Prop := cs ≠ [] ∧ ∀ c ∈ cs, isPyDigit c = true

/-- The characters of a candidate version `X.Y.Z`. -/
def versionCore (x y z : List Char) : List Char := x ++ '.' :: y ++ '.' :: z

/-- The characters of the literal part `.zip` of the version regex. -/
def dotZip : List Char := ['.', 'z', 'i', 'p']

/-- The claim's literal pattern: `f` ends with a hyphen, three dot-separated
non-empty digit sequences and `.zip`, and `v` is the version part. -/
def VersionSuffix (f v : List Char) : Prop :=
  ∃ p x y z, allDigits x ∧ allDigits y ∧ allDigits z ∧
    f = p ++ '-' :: (versionCore x y z ++ dotZip) ∧ v = versionCore x y z

/-- The pattern the program actually matches: as `VersionSuffix`, but the
suffix may additionally be followed by one final newline, because the regex
anchor `$` (without `re.MULTILINE`) matches at the end of the string or just
before a trailing final newline. -/
def VersionSuffixN (f v : List Char) : Prop :=
  ∃ p x y z t, allDigits x ∧ allDigits y ∧ allDigits z ∧ (t = [] ∨ t = ['\n']) ∧
    f = p ++ '-' :: (versionCore x y z ++ dotZip ++ t) ∧ v = versionCore x y z

/-- One `\d+\.` step of the version regex: consume a non-empty digit run
followed by a literal dot, returning the run and the remainder.  Because
`\d+` is followed by a character `\d` cannot match (`.`), greedy matching
with backtracking is equivalent to taking the maximal digit run, which is
what this function does. -/
def eatDigitsDot (cs : List Char) : Option (List Char × List Char) :=
  match cs.dropWhile isPyDigit with
  | [] => none
  | d :: r =>
    if cs.takeWhile isPyDigit ≠ [] ∧ d = '.' then some (cs.takeWhile isPyDigit, r)
    else none

/-- The final `\d+\.zip$` step of the version regex: a non-empty digit run
whose remainder is exactly `.zip`, or `.zip` followed by one final newline —
Python's `$` anchor matches at the end of the string and also just before a
newline that ends the string. -/
def eatVersionTail (cs : List Char) : Option (List Char) :=
  if cs.takeWhile isPyDigit ≠ [] ∧
      (cs.dropWhile isPyDigit = dotZip ∨ cs.dropWhile isPyDigit = dotZip ++ ['\n']) then
    some (cs.takeWhile isPyDigit)
  else none

/-- Attempt the anchored pattern `-(\d+\.\d+\.\d+)\.zip$` at the head of
`cs`, consuming the whole remainder, and return the captured group. -/
def tryVersionAt : List Char → Option (List Char)
  | [] => none
  | c :: rest =>
    if c = '-' then
      match eatDigitsDot rest with
      | none => none
      | some (x, r2) =>
        match eatDigitsDot r2 with
        | none => none
        | some (y, r4) =>
          match eatVersionTail r4 with
          | none => none
          | some z => some (x ++ '.' :: y ++ '.' :: z)
    else none

/-- Models `re.search` of the anchored pattern: try successive start positions from
the left and return the first (leftmost) successful match. -/
def searchVersion : List Char → Option (List Char)
  | [] => none
  | c :: rest =>
    match tryVersionAt (c :: rest) with
    | some v => some v
    | none => searchVersion rest

/-- The Version Extractor `extract_version_from_filename`.  Models
`re.search(r'-(\d+\.\d+\.\d+)\.zip$', filename)`, returning the captured
group or `None`: `\d` is any Unicode decimal digit, and `$` also matches
just before a trailing final newline. -/
def extract_version_from_filename (filename : String) : Option String :=
  match searchVersion filename.data with
  | some v => some (String.mk v)
  | none => none

/-- The characters of the metadata filename `'package.json'`. -/
def pkgJson : List Char := "package.json".data

/-- Models Python `str.replace('package.json', '')`: remove the
left-to-right non-overlapping occurrences of `pkgJson`.  The `Nat` argument
is fuel making the recursion structural (and hence kernel-reducible);
`removePkgJson` instantiates it with the length of the string, which always
suffices, and every claim-relevant property below holds for every fuel. -/
def removePkgJsonFuel : Nat → List Char → List Char
  | 0, cs => cs
  | _+1, [] => []
  | fuel+1, c :: rest =>
    if pkgJson.isPrefixOf (c :: rest) then removePkgJsonFuel fuel (rest.drop 11)
    else c :: removePkgJsonFuel fuel rest

/-- Models `name.replace('package.json', '')` from line 30 of the source. -/
def removePkgJson (cs : List Char) : List Char :=
  removePkgJsonFuel cs.length cs

/-- The metadata-entry test of `extract_package_info`, line 30:
`name.endswith('package.json') and '/' not in name.replace('package.json', '')`. -/
def isMetadataEntry (name : String) : Bool :=
  pkgJson.isSuffixOf name.data && !((removePkgJson name.data).contains '/')

/-- An entry of a zip archive: its stored path and what `z.read(...).decode
('utf-8')` + `json.loads` yields for it — `none` when reading or parsing
raises (the exception is caught by `extract_package_info`). -/
structure ZipEntry where
  name : String
  content : Option Json

/-- The Metadata Reader `extract_package_info`.  The argument is `none` when
`ZipFile(zip_path)` raises (unreadable archive; the exception is caught and
`None` is returned).  Otherwise the first entry of the namelist passing
`isMetadataEntry` is read and parsed; no such entry, or a read/parse failure,
yields `None`.  Note `json.loads` can return any JSON value, including
`null` (Python `None`, i.e. `some Json.null` here, which the caller cannot
tell apart from failure). -/
def extract_package_info (archive : Option (List ZipEntry)) : Option Json :=
  match archive with
  | none => none
  | some entries =>
    match entries.find? (fun e => isMetadataEntry e.name) with
    | none => none
    | some e => e.content

/-- A file of a plugin directory: its filename and the archive behind it
(`none` when opening the archive raises). -/
structure FileEntry where
  name : String
  archive : Option (List ZipEntry)

/-- An entry of the scan root, as seen by `os.listdir('.')` +
`os.path.isdir`. -/
structure DirEntry where
  name : String
  isDir : Bool
  files : List FileEntry

/-- The Version Record dict built at lines 98–113 (field insertion order:
name, displayName, version, unity, description, url, then optionally
vpmDependencies and author). -/
abbrev VersionInfo := List (String × Json)

/-- The versions dict of one package (version string → Version Record),
in Python dict insertion order. -/
abbrev Versions := List (String × VersionInfo)

/-- The accumulating `packages` dict: package name (a hashable scalar `Json`
value) → versions dict.  The `\x7b"versions": ...\x7d` wrapper dict of the
source holds a single constant key and is modelled by `Versions` itself. -/
abbrev Packages := List (Json × Versions)

/-- The `DOWNLOAD_URL_BASE` template up to its first placeholder; the source
template is `https://raw.githubusercontent.com/cielo-h/vpmRepo/master/` ++
`\x7bplugin_name\x7d/\x7bfilename\x7d`. -/
def urlBase : String := "https://raw.githubusercontent.com/cielo-h/vpmRepo/master/"

/-- Lines 92–95: `DOWNLOAD_URL_BASE.format(plugin_name=package_info.get
('displayName'), filename=filename)` — purely textual substitution of
`str(...)` of the two values into the template. -/
def downloadUrl (kvs : List (String × Json)) (filename : String) : String :=
  urlBase ++ pyStr (pyGet kvs "displayName") ++ "/" ++ filename

/-- Lines 98–113: build the Version Record from the metadata dict `kvs`, the
extracted `version` and the archive `filename`.  `vpmDependencies` and
`author` are appended only when present in `kvs`. -/
def mkVersionInfo (kvs : List (String × Json)) (version filename : String) : VersionInfo :=
  [("name", pyGet kvs "name"),
   ("displayName", pyGet kvs "displayName"),
   ("version", .str version),
   ("unity", pyGet kvs "unity"),
   ("description", pyGet kvs "description"),
   ("url", .str (downloadUrl kvs filename))] ++
  (match kvs.lookup "vpmDependencies" with
   | some dv => [("vpmDependencies", dv)]
   | none => []) ++
  (match kvs.lookup "author" with
   | some av => [("author", av)]
   | none => [])

/-- Python dict assignment `d[v] = vi` on the versions dict: update in place
when the key is present (keeping its position), append otherwise. -/
def setIn (vs : Versions) (v : String) (vi : VersionInfo) : Versions :=
  match vs with
  | [] => [(v, vi)]
  | (v', x) :: rest => if v' == v then (v', vi) :: rest else (v', x) :: setIn rest v vi

/-- Models `package_name in packages` (after the hashability check). -/
def containsKey (ps : Packages) (k : Json) : Bool :=
  ps.any (fun e => jsonKeyEq e.1 k)

/-- Models `packages[package_name]["versions"][version] = version_info`: update the
versions dict of the entry keyed `k` (which is present when this runs). -/
def updatePkg (ps : Packages) (k : Json) (v : String) (vi : VersionInfo) : Packages :=
  match ps with
  | [] => []
  | (k', vs) :: rest =>
    if jsonKeyEq k' k then (k', setIn vs v vi) :: rest
    else (k', vs) :: updatePkg rest k v vi

/-- Lines 60–116: the per-file body of the scanner loop.  Mirrors the source
order: extension filter, prefix filter, version extraction, metadata read,
`is None` test, `.get('name')` (which raises `AttributeError` on a non-dict
value — nothing in the source catches that), truthiness test on the name,
then `package_name not in packages` (which raises `TypeError` when the name
is unhashable), entry creation and version insertion. -/
def processFile (packages : Packages) (f : FileEntry) : Except PyExn Packages :=
  if !(strEndsWith f.name ".zip") then .ok packages
  else if !(strStartsWith f.name "vpm.") then .ok packages
  else match extract_version_from_filename f.name with
    | none => .ok packages
    | some version =>
      match extract_package_info f.archive with
      | none => .ok packages
      | some pdata =>
        match pdata with
        | .null => .ok packages
        | .obj kvs =>
          if !(pyTruthy (pyGet kvs "name")) then .ok packages
          else if !(pyHashable (pyGet kvs "name")) then .error .typeError
          else
            .ok (updatePkg
              (if containsKey packages (pyGet kvs "name") then packages
               else packages ++ [(pyGet kvs "name", [])])
              (pyGet kvs "name") version (mkVersionInfo kvs version f.name))
        | _ => .error .attributeError

/-- Lines 49–58: the per-directory body of the scanner loop: skip non-
directories and hidden directories, then run the file loop.  (The redundant
`os.path.exists` re-check of line 57 cannot fire in this model and is
omitted.) -/
def processDir (packages : Packages) (d : DirEntry) : Except PyExn Packages :=
  if !d.isDir then .ok packages
  else if strStartsWith d.name "." then .ok packages
  else d.files.foldlM processFile packages

/-- The Package Scanner `scan_packages`, folded over the scan root.  An
uncaught exception in the loop body aborts the whole scan (`Except.error`). -/
def scan_packages (root : List DirEntry) : Except PyExn Packages :=
  root.foldlM processDir []

/-- The `REPO_INFO` constants and the shape of `generate_index`'s result. -/
structure IndexDoc where
  name : String
  id : String
  url : String
  author : String
  packages : Packages

/-- The Index Builder `generate_index`: wrap the scanned mapping with the repository
descriptor constants, in the fixed key order name, id, url, author,
packages. -/
def generate_index (root : List DirEntry) : Except PyExn IndexDoc :=
  (scan_packages root).map fun ps =>
    ⟨"Cielo Repo", "vpm.cielo-h", "https://cielo-h.github.io/vpmRepo/index.json", "cielo-h", ps⟩

/-- A concrete one-package tree used by the witnesses (spec §8's example). -/
def coolMeta : List (String × Json) :=
  [("name", .str "com.example.cool"),
   ("displayName", .str "Cool Plugin"),
   ("unity", .str "2019.4"),
   ("description", .str "x")]

def coolDir : DirEntry :=
  ⟨"coolplugin",
   true,
   [⟨"vpm.myrepo.coolplugin-1.2.3.zip", some [⟨"package.json", some (.obj coolMeta)⟩]⟩]⟩

/-- A scanner file qualifies when its name ends with the archive extension
and starts with the namespace marker (lines 61–66). -/
def qualifies (f : FileEntry) : Bool :=
  strEndsWith f.name ".zip" && strStartsWith f.name "vpm."

/-- Restriction of a scan root to what the scanner's filters keep: only real,
non-hidden directories, and within them only qualifying files. -/
def pruneTree (root : List DirEntry) : List DirEntry :=
  (root.filter (fun d => d.isDir && !(strStartsWith d.name "."))).map
    (fun d => ⟨d.name, d.isDir, d.files.filter qualifies⟩)

/-- Provenance of a Version Record: some non-hidden directory of the root
holds a qualifying archive whose filename yields version `v` and whose
metadata object `kvs` has a truthy name, and `vi` is exactly the Version
Record built from them. -/
def RecordOk (root : List DirEntry) (v : String) (vi : VersionInfo) : Prop :=
  ∃ d, d ∈ root ∧ d.isDir = true ∧ strStartsWith d.name "." = false ∧
  ∃ f, f ∈ d.files ∧ strEndsWith f.name ".zip" = true ∧ strStartsWith f.name "vpm." = true ∧
  ∃ kvs, extract_version_from_filename f.name = some v ∧
    extract_package_info f.archive = some (.obj kvs) ∧
    pyTruthy (pyGet kvs "name") = true ∧
    vi = mkVersionInfo kvs v f.name

/-- Invariant of the accumulating packages dict: every package entry has a
non-empty versions dict, and every stored Version Record has a provenance in
the scanned tree. -/
def ScanInv (root : List DirEntry) (ps : Packages) : Prop :=
  ∀ e ∈ ps, e.2 ≠ [] ∧ ∀ ve ∈ e.2, RecordOk root ve.1 ve.2

/-- The Version Record built from `coolDir` (see also spec §8's example). -/
def coolVi : VersionInfo :=
  [("name", .str "com.example.cool"),
   ("displayName", .str "Cool Plugin"),
   ("version", .str "1.2.3"),
   ("unity", .str "2019.4"),
   ("description", .str "x"),
   ("url", .str "https://raw.githubusercontent.com/cielo-h/vpmRepo/master/Cool Plugin/vpm.myrepo.coolplugin-1.2.3.zip")]

/-- The packages dict produced by scanning `[coolDir]`. -/
def coolPkgs : Packages := [(.str "com.example.cool", [("1.2.3", coolVi)])]

/-- A tree whose metadata has a display name full of URL-special characters
and carries a dependency dict but no author. -/
def spicyMeta : List (String × Json) :=
  [("name", .str "com.example.spicy"),
   ("displayName", .str "My Plugin?& #1"),
   ("vpmDependencies", .obj [("com.example.base", .str "1.0.0")])]

def spicyDir : DirEntry :=
  ⟨"spicy", true, [⟨"vpm.myrepo.spicy-2.0.1.zip", some [⟨"package.json", some (.obj spicyMeta)⟩]⟩]⟩

/-- The Version Record produced from `spicyDir`'s single archive. -/
def spicyVi : VersionInfo :=
  [("name", .str "com.example.spicy"),
   ("displayName", .str "My Plugin?& #1"),
   ("version", .str "2.0.1"),
   ("unity", .null),
   ("description", .null),
   ("url", .str "https://raw.githubusercontent.com/cielo-h/vpmRepo/master/My Plugin?& #1/vpm.myrepo.spicy-2.0.1.zip"),
   ("vpmDependencies", .obj [("com.example.base", .str "1.0.0")])]

/-- The packages dict produced by scanning `[spicyDir]`. -/
def spicyPkgs : Packages :=
  [(.str "com.example.spicy", [("2.0.1", spicyVi)])]

theorem span_all_stop {p : Char → Bool} (a : List Char) (d : Char) (b : List Char)
    (ha : ∀ c ∈ a, p c = true) (hd : p d = false) :
    (a ++ d :: b).takeWhile p = a ∧ (a ++ d :: b).dropWhile p = d :: b := by
  induction a with
  | nil => simp [List.takeWhile_cons, List.dropWhile_cons, hd]
  | cons c cs ih =>
    have hc : p c = true := ha c (by simp)
    have ih' := ih (fun c hc' => ha c (by simp [hc']))
    simp [List.takeWhile_cons, List.dropWhile_cons, hc, ih'.1, ih'.2]

theorem eatDigitsDot_eq_some (cs x r : List Char) :
    eatDigitsDot cs = some (x, r) ↔ allDigits x ∧ cs = x ++ '.' :: r := by
  constructor
  · intro h
    unfold eatDigitsDot at h
    split at h
    next heq => exact absurd h (by simp)
    next d r' heq =>
      split at h
      case isFalse => exact absurd h (by simp)
      case isTrue hcond =>
        obtain ⟨hne, hd⟩ := hcond
        injection h with h
        injection h with h1 h2
        subst h1 h2 hd
        refine ⟨⟨hne, fun c hc => List.mem_takeWhile_imp hc⟩, ?_⟩
        conv_lhs => rw [← List.takeWhile_append_dropWhile (p := isPyDigit) (l := cs)]
        rw [heq]
  · rintro ⟨⟨hne, hdig⟩, hcs⟩
    subst hcs
    have s := span_all_stop (p := isPyDigit) x '.' r hdig (by decide)
    unfold eatDigitsDot
    rw [s.2]
    simp [s.1, hne]

theorem eatVersionTail_eq_some (cs z : List Char) :
    eatVersionTail cs = some z ↔
      allDigits z ∧ (cs = z ++ dotZip ∨ cs = z ++ dotZip ++ ['\n']) := by
  constructor
  · intro h
    unfold eatVersionTail at h
    split at h
    case isFalse => exact absurd h (by simp)
    case isTrue hcond =>
      obtain ⟨hne, hdz⟩ := hcond
      injection h with h
      subst h
      refine ⟨⟨hne, fun c hc => List.mem_takeWhile_imp hc⟩, ?_⟩
      rcases hdz with hdz | hdz
      · left
        conv_lhs => rw [← List.takeWhile_append_dropWhile (p := isPyDigit) (l := cs)]
        rw [hdz]
      · right
        conv_lhs => rw [← List.takeWhile_append_dropWhile (p := isPyDigit) (l := cs)]
        rw [hdz, List.append_assoc]
  · rintro ⟨⟨hne, hdig⟩, hcs⟩
    rcases hcs with rfl | rfl
    · have s := span_all_stop (p := isPyDigit) z '.' ['z', 'i', 'p'] hdig (by decide)
      have s1 : (z ++ dotZip).takeWhile isPyDigit = z := s.1
      have s2 : (z ++ dotZip).dropWhile isPyDigit = dotZip := s.2
      unfold eatVersionTail
      simp [s1, s2, hne]
    · have s := span_all_stop (p := isPyDigit) z '.' ['z', 'i', 'p', '\n'] hdig (by decide)
      have s1 : (z ++ (dotZip ++ ['\n'])).takeWhile isPyDigit = z := s.1
      have s2 : (z ++ (dotZip ++ ['\n'])).dropWhile isPyDigit = dotZip ++ ['\n'] := s.2
      rw [List.append_assoc]
      unfold eatVersionTail
      rw [s1, s2]
      simp [hne]

theorem tryVersionAt_eq_some (cs v : List Char) :
    tryVersionAt cs = some v ↔
      ∃ x y z t, allDigits x ∧ allDigits y ∧ allDigits z ∧ (t = [] ∨ t = ['\n']) ∧
        cs = '-' :: (versionCore x y z ++ dotZip ++ t) ∧ v = versionCore x y z := by
  constructor
  · intro h
    match cs with
    | [] => simp [tryVersionAt] at h
    | c :: rest =>
      simp only [tryVersionAt] at h
      split at h
      case isFalse => exact absurd h (by simp)
      case isTrue hc =>
        subst hc
        split at h
        next heq1 => exact absurd h (by simp)
        next x r2 heq1 =>
          split at h
          next heq2 => exact absurd h (by simp)
          next y r4 heq2 =>
            split at h
            next heq3 => exact absurd h (by simp)
            next z heq3 =>
              obtain ⟨hx, e1⟩ := (eatDigitsDot_eq_some rest x r2).1 heq1
              obtain ⟨hy, e2⟩ := (eatDigitsDot_eq_some r2 y r4).1 heq2
              have e3 := (eatVersionTail_eq_some r4 z).1 heq3
              obtain ⟨hz, he3⟩ := e3
              injection h with h
              rcases he3 with he | he
              · refine ⟨x, y, z, [], hx, hy, hz, Or.inl rfl, ?_, h.symm⟩
                rw [e1, e2, he]
                simp [versionCore, dotZip]
              · refine ⟨x, y, z, ['\n'], hx, hy, hz, Or.inr rfl, ?_, h.symm⟩
                rw [e1, e2, he]
                simp [versionCore, dotZip]
  · rintro ⟨x, y, z, t, hx, hy, hz, ht, hcs, hv⟩
    subst hcs hv
    rcases ht with rfl | rfl
    · have hshape : versionCore x y z ++ dotZip ++ ([] : List Char) =
          x ++ '.' :: (y ++ '.' :: (z ++ dotZip)) := by
        simp [versionCore, dotZip]
      have e1 : eatDigitsDot (x ++ '.' :: (y ++ '.' :: (z ++ dotZip))) =
          some (x, y ++ '.' :: (z ++ dotZip)) :=
        (eatDigitsDot_eq_some _ _ _).2 ⟨hx, rfl⟩
      have e2 : eatDigitsDot (y ++ '.' :: (z ++ dotZip)) = some (y, z ++ dotZip) :=
        (eatDigitsDot_eq_some _ _ _).2 ⟨hy, rfl⟩
      have e3 : eatVersionTail (z ++ dotZip) = some z :=
        (eatVersionTail_eq_some _ _).2 ⟨hz, Or.inl rfl⟩
      simp only [tryVersionAt]
      rw [hshape]
      simp [e1, e2, e3, versionCore]
    · have hshape : versionCore x y z ++ dotZip ++ ['\n'] =
          x ++ '.' :: (y ++ '.' :: (z ++ (dotZip ++ ['\n']))) := by
        simp [versionCore, dotZip]
      have e1 : eatDigitsDot (x ++ '.' :: (y ++ '.' :: (z ++ (dotZip ++ ['\n'])))) =
          some (x, y ++ '.' :: (z ++ (dotZip ++ ['\n']))) :=
        (eatDigitsDot_eq_some _ _ _).2 ⟨hx, rfl⟩
      have e2 : eatDigitsDot (y ++ '.' :: (z ++ (dotZip ++ ['\n']))) =
          some (y, z ++ (dotZip ++ ['\n'])) :=
        (eatDigitsDot_eq_some _ _ _).2 ⟨hy, rfl⟩
      have e3 : eatVersionTail (z ++ (dotZip ++ ['\n'])) = some z :=
        (eatVersionTail_eq_some _ _).2 ⟨hz, Or.inr (List.append_assoc z dotZip ['\n']).symm⟩
      simp only [tryVersionAt]
      rw [hshape]
      simp [e1, e2, e3, versionCore]

theorem digit_run_append_inj (a : List Char) :
    ∀ (a' t t' : List Char) (sep sep' : Char),
      (∀ c ∈ a, isPyDigit c = true) → (∀ c ∈ a', isPyDigit c = true) →
      isPyDigit sep = false → isPyDigit sep' = false →
      a ++ sep :: t = a' ++ sep' :: t' → a = a' ∧ sep = sep' ∧ t = t' := by
  induction a with
  | nil =>
    intro a' t t' sep sep' _ ha' hs _ h
    cases a' with
    | nil => simpa using h
    | cons c' cs' =>
      simp only [List.nil_append, List.cons_append, List.cons.injEq] at h
      have : isPyDigit c' = true := ha' c' (by simp)
      rw [← h.1] at this
      rw [this] at hs
      exact absurd hs (by simp)
  | cons c cs ih =>
    intro a' t t' sep sep' ha ha' hs hs' h
    cases a' with
    | nil =>
      simp only [List.nil_append, List.cons_append, List.cons.injEq] at h
      have : isPyDigit c = true := ha c (by simp)
      rw [h.1] at this
      rw [this] at hs'
      exact absurd hs' (by simp)
    | cons c' cs' =>
      simp only [List.cons_append, List.cons.injEq] at h
      obtain ⟨hc, hrest⟩ := h
      obtain ⟨h1, h2, h3⟩ := ih cs' t t' sep sep'
        (fun c hc => ha c (by simp [hc])) (fun c hc => ha' c (by simp [hc])) hs hs' hrest
      exact ⟨by rw [hc, h1], h2, h3⟩

theorem rev_core_unique (x1 y1 z1 p1 x2 y2 z2 p2 : List Char)
    (hx1 : ∀ c ∈ x1, isPyDigit c = true) (hy1 : ∀ c ∈ y1, isPyDigit c = true)
    (hz1 : ∀ c ∈ z1, isPyDigit c = true)
    (hx2 : ∀ c ∈ x2, isPyDigit c = true) (hy2 : ∀ c ∈ y2, isPyDigit c = true)
    (hz2 : ∀ c ∈ z2, isPyDigit c = true)
    (h : z1.reverse ++ '.' :: (y1.reverse ++ '.' :: (x1.reverse ++ '-' :: p1.reverse)) =
         z2.reverse ++ '.' :: (y2.reverse ++ '.' :: (x2.reverse ++ '-' :: p2.reverse))) :
    x1 = x2 ∧ y1 = y2 ∧ z1 = z2 := by
  have digrev : ∀ w : List Char, (∀ c ∈ w, isPyDigit c = true) →
      ∀ c ∈ w.reverse, isPyDigit c = true := by
    intro w hw c hc
    exact hw c (List.mem_reverse.1 hc)
  obtain ⟨ez, _, hrest1⟩ := digit_run_append_inj z1.reverse z2.reverse _ _ '.' '.'
    (digrev z1 hz1) (digrev z2 hz2) (by decide) (by decide) h
  obtain ⟨ey, _, hrest2⟩ := digit_run_append_inj y1.reverse y2.reverse _ _ '.' '.'
    (digrev y1 hy1) (digrev y2 hy2) (by decide) (by decide) hrest1
  obtain ⟨ex, _, _⟩ := digit_run_append_inj x1.reverse x2.reverse _ _ '-' '-'
    (digrev x1 hx1) (digrev x2 hx2) (by decide) (by decide) hrest2
  exact ⟨List.reverse_injective ex, List.reverse_injective ey, List.reverse_injective ez⟩

theorem versionSuffixN_unique (f v1 v2 : List Char)
    (h1 : VersionSuffixN f v1) (h2 : VersionSuffixN f v2) : v1 = v2 := by
  obtain ⟨p1, x1, y1, z1, t1, hx1, hy1, hz1, ht1, hf1, hv1⟩ := h1
  obtain ⟨p2, x2, y2, z2, t2, hx2, hy2, hz2, ht2, hf2, hv2⟩ := h2
  rcases ht1 with rfl | rfl
  · have hrev1 : f.reverse = 'p' :: 'i' :: 'z' :: '.' ::
        (z1.reverse ++ '.' :: (y1.reverse ++ '.' :: (x1.reverse ++ '-' :: p1.reverse))) := by
      rw [hf1]
      simp [versionCore, dotZip]
    rcases ht2 with rfl | rfl
    · have hrev2 : f.reverse = 'p' :: 'i' :: 'z' :: '.' ::
          (z2.reverse ++ '.' :: (y2.reverse ++ '.' :: (x2.reverse ++ '-' :: p2.reverse))) := by
        rw [hf2]
        simp [versionCore, dotZip]
      rw [hrev1] at hrev2
      simp only [List.cons.injEq, true_and] at hrev2
      obtain ⟨ex, ey, ez⟩ := rev_core_unique x1 y1 z1 p1 x2 y2 z2 p2
        hx1.2 hy1.2 hz1.2 hx2.2 hy2.2 hz2.2 hrev2
      rw [hv1, hv2, ex, ey, ez]
    · have hrev2 : f.reverse = '\n' :: 'p' :: 'i' :: 'z' :: '.' ::
          (z2.reverse ++ '.' :: (y2.reverse ++ '.' :: (x2.reverse ++ '-' :: p2.reverse))) := by
        rw [hf2]
        simp [versionCore, dotZip]
      rw [hrev1] at hrev2
      injection hrev2 with hhead _
      exact absurd hhead (by decide)
  · have hrev1 : f.reverse = '\n' :: 'p' :: 'i' :: 'z' :: '.' ::
        (z1.reverse ++ '.' :: (y1.reverse ++ '.' :: (x1.reverse ++ '-' :: p1.reverse))) := by
      rw [hf1]
      simp [versionCore, dotZip]
    rcases ht2 with rfl | rfl
    · have hrev2 : f.reverse = 'p' :: 'i' :: 'z' :: '.' ::
          (z2.reverse ++ '.' :: (y2.reverse ++ '.' :: (x2.reverse ++ '-' :: p2.reverse))) := by
        rw [hf2]
        simp [versionCore, dotZip]
      rw [hrev1] at hrev2
      injection hrev2 with hhead _
      exact absurd hhead (by decide)
    · have hrev2 : f.reverse = '\n' :: 'p' :: 'i' :: 'z' :: '.' ::
          (z2.reverse ++ '.' :: (y2.reverse ++ '.' :: (x2.reverse ++ '-' :: p2.reverse))) := by
        rw [hf2]
        simp [versionCore, dotZip]
      rw [hrev1] at hrev2
      simp only [List.cons.injEq, true_and] at hrev2
      obtain ⟨ex, ey, ez⟩ := rev_core_unique x1 y1 z1 p1 x2 y2 z2 p2
        hx1.2 hy1.2 hz1.2 hx2.2 hy2.2 hz2.2 hrev2
      rw [hv1, hv2, ex, ey, ez]

theorem searchVersion_eq_some (f : List Char) :
    ∀ v, searchVersion f = some v ↔ VersionSuffixN f v := by
  induction f with
  | nil =>
    intro v
    constructor
    · intro h
      simp [searchVersion] at h
    · rintro ⟨p, x, y, z, t, _, _, _, _, hf, _⟩
      exact absurd hf (by simp)
  | cons c rest ih =>
    intro v
    constructor
    · intro h
      simp only [searchVersion] at h
      split at h
      next w htry =>
        injection h with h
        subst h
        obtain ⟨x, y, z, t, hx, hy, hz, ht, hcs, hv⟩ := (tryVersionAt_eq_some _ _).1 htry
        exact ⟨[], x, y, z, t, hx, hy, hz, ht, by simpa using hcs, hv⟩
      next htry =>
        obtain ⟨p, x, y, z, t, hx, hy, hz, ht, hf, hv⟩ := (ih v).1 h
        exact ⟨c :: p, x, y, z, t, hx, hy, hz, ht, by simp [hf], hv⟩
    · intro hvs
      simp only [searchVersion]
      split
      next w htry =>
        obtain ⟨x, y, z, t, hx, hy, hz, ht, hcs, hv⟩ := (tryVersionAt_eq_some _ _).1 htry
        have hvs' : VersionSuffixN (c :: rest) w :=
          ⟨[], x, y, z, t, hx, hy, hz, ht, by simpa using hcs, hv⟩
        rw [versionSuffixN_unique _ _ _ hvs hvs']
      next htry =>
        obtain ⟨p, x, y, z, t, hx, hy, hz, ht, hf, hv⟩ := hvs
        cases p with
        | nil =>
          exfalso
          have : tryVersionAt (c :: rest) = some (versionCore x y z) := by
            apply (tryVersionAt_eq_some _ _).2
            exact ⟨x, y, z, t, hx, hy, hz, ht, by simpa using hf, rfl⟩
          rw [this] at htry
          exact absurd htry (by simp)
        | cons p0 ps =>
          apply (ih v).2
          refine ⟨ps, x, y, z, t, hx, hy, hz, ht, ?_, hv⟩
          simpa using congrArg List.tail hf

/-- Claim C2, amended (the literal claim is refuted by
`vpm_C2_counterexample`): for every filename ending with a hyphen, three
dot-separated non-empty sequences of `\d` digits and `.zip`, optionally
followed by one final newline — which the regex's `$` anchor accepts — the
Version Extractor returns exactly the version part `X.Y.Z`; for every other
filename it returns the "not found" signal `none`; it is a total function,
so it never raises. -/
theorem vpm_C2 (f : String) :
    (∀ v : List Char, VersionSuffixN f.data v →
      extract_version_from_filename f = some (String.mk v)) ∧
    ((∀ v, ¬ VersionSuffixN f.data v) → extract_version_from_filename f = none) := by
  constructor
  · intro v hvs
    unfold extract_version_from_filename
    rw [(searchVersion_eq_some f.data v).2 hvs]
  · intro hno
    unfold extract_version_from_filename
    cases h : searchVersion f.data with
    | none => rfl
    | some w => exact absurd ((searchVersion_eq_some f.data w).1 h) (hno w)

/-- Counterexample to C2 as stated: the filename `a-1.2.3.zip` followed by a
final newline does not end with the claimed `-X.Y.Z.zip` suffix, yet the
program's `re.search` matches — `$` also matches just before a trailing
final newline — so the Version Extractor returns `1.2.3` where the claim
requires the "not found" signal. -/
theorem vpm_C2_counterexample :
    (∀ v : List Char, ¬ VersionSuffix "a-1.2.3.zip\n".data v) ∧
    extract_version_from_filename "a-1.2.3.zip\n" = some "1.2.3" := by
  constructor
  · rintro v ⟨p, x, y, z, -, -, -, hf, -⟩
    have hrev : ("a-1.2.3.zip\n".data).reverse = 'p' :: 'i' :: 'z' :: '.' ::
        (z.reverse ++ '.' :: (y.reverse ++ '.' :: (x.reverse ++ '-' :: p.reverse))) := by
      rw [hf]
      simp [versionCore, dotZip]
    have hl : ("a-1.2.3.zip\n".data).reverse =
        ['\n', 'p', 'i', 'z', '.', '3', '.', '2', '.', '1', '-', 'a'] := by decide
    rw [hl] at hrev
    injection hrev with hhead _
    exact absurd hhead (by decide)
  · rfl

/-- Witness for C2 (amended) at the concrete filename
`vpm.myrepo.coolplugin-1.2.3.zip`, with no trailing newline. -/
theorem vpm_C2_witness :
    VersionSuffixN "vpm.myrepo.coolplugin-1.2.3.zip".data ['1', '.', '2', '.', '3'] ∧
    extract_version_from_filename "vpm.myrepo.coolplugin-1.2.3.zip" = some "1.2.3" := by
  have hvs : VersionSuffixN "vpm.myrepo.coolplugin-1.2.3.zip".data ['1', '.', '2', '.', '3'] :=
    ⟨"vpm.myrepo.coolplugin".data, ['1'], ['2'], ['3'], [],
      ⟨by decide, by decide⟩, ⟨by decide, by decide⟩, ⟨by decide, by decide⟩,
      Or.inl rfl, by decide, by decide⟩
  exact ⟨hvs, (vpm_C2 "vpm.myrepo.coolplugin-1.2.3.zip").1 ['1', '.', '2', '.', '3'] hvs⟩

theorem slash_mem_removePkgJsonFuel (fuel : Nat) :
    ∀ cs : List Char, '/' ∈ removePkgJsonFuel fuel cs ↔ '/' ∈ cs := by
  induction fuel with
  | zero => intro cs; rfl
  | succ fuel ih =>
    intro cs
    cases cs with
    | nil => rfl
    | cons c rest =>
      simp only [removePkgJsonFuel]
      split
      next hpre =>
        obtain ⟨t, ht⟩ := List.isPrefixOf_iff_prefix.1 hpre
        have hdrop : rest.drop 11 = t := by
          have : (pkgJson ++ t).drop pkgJson.length = t := List.drop_left pkgJson t
          rw [ht] at this
          exact this
        rw [hdrop, ih t, ← ht]
        simp [pkgJson]
      next =>
        simp [ih rest]

theorem slash_mem_removePkgJson (cs : List Char) :
    '/' ∈ removePkgJson cs ↔ '/' ∈ cs :=
  slash_mem_removePkgJsonFuel cs.length cs

theorem isMetadataEntry_iff (name : String) :
    isMetadataEntry name = true ↔ ∃ pre, name.data = pre ++ pkgJson ∧ '/' ∉ pre := by
  constructor
  · intro h
    simp only [isMetadataEntry, Bool.and_eq_true] at h
    obtain ⟨h1, h2⟩ := h
    obtain ⟨pre, hpre⟩ := List.isSuffixOf_iff_suffix.1 h1
    refine ⟨pre, hpre.symm, ?_⟩
    intro hsl
    have hmem : '/' ∈ name.data := by
      rw [← hpre]
      exact List.mem_append.2 (Or.inl hsl)
    have hc : (removePkgJson name.data).contains '/' = true :=
      List.elem_iff.2 ((slash_mem_removePkgJson _).2 hmem)
    rw [hc] at h2
    exact absurd h2 (by simp)
  · rintro ⟨pre, hname, hslash⟩
    simp only [isMetadataEntry, Bool.and_eq_true]
    constructor
    · exact List.isSuffixOf_iff_suffix.2 ⟨pre, hname.symm⟩
    · have hnd : '/' ∉ name.data := by
        rw [hname]
        intro hmem
        rcases List.mem_append.1 hmem with h | h
        · exact hslash h
        · exact absurd h (by decide)
      have hno : '/' ∉ removePkgJson name.data :=
        fun hc => hnd ((slash_mem_removePkgJson _).1 hc)
      simp only [Bool.not_eq_true']
      exact Bool.eq_false_iff.2 (fun hc => hno (List.elem_iff.1 hc))

/-- C4: the Metadata Reader selects an archive entry as the metadata file if
and only if its stored path ends with `package.json` and contains no `/`
before that suffix; consequently, for an archive none of whose entries is a
root-level metadata file (e.g. all metadata-named entries live inside
subdirectories), it signals "no metadata" (`none`). -/
theorem vpm_C4 :
    (∀ name : String, isMetadataEntry name = true ↔
      ∃ pre, name.data = pre ++ pkgJson ∧ '/' ∉ pre) ∧
    (∀ entries : List ZipEntry,
      (∀ e ∈ entries, ¬ ∃ pre, e.name.data = pre ++ pkgJson ∧ '/' ∉ pre) →
      extract_package_info (some entries) = none) := by
  constructor
  · exact isMetadataEntry_iff
  · intro entries h
    have hfind : entries.find? (fun e => isMetadataEntry e.name) = none := by
      rw [List.find?_eq_none]
      intro e he
      intro hruntrue
      exact h e he ((isMetadataEntry_iff e.name).1 hruntrue)
    simp only [extract_package_info, hfind]

/-- Witness for C4: an archive whose only metadata-named entry lives in a
subdirectory yields "no metadata". -/
theorem vpm_C4_witness :
    extract_package_info (some [⟨"sub/package.json", some (.obj [])⟩]) = none := by
  apply vpm_C4.2
  intro e he hex
  have htrue : isMetadataEntry e.name = true := (vpm_C4.1 e.name).2 hex
  rw [List.mem_singleton] at he
  subst he
  exact absurd htrue (by decide)

theorem setIn_ne_nil (vs : Versions) (v : String) (vi : VersionInfo) :
    setIn vs v vi ≠ [] := by
  cases vs with
  | nil => simp [setIn]
  | cons h t =>
    simp only [setIn]
    split <;> simp

theorem mem_setIn (vs : Versions) (v : String) (vi : VersionInfo) (ve : String × VersionInfo)
    (h : ve ∈ setIn vs v vi) : ve ∈ vs ∨ ve = (v, vi) := by
  induction vs with
  | nil =>
    simp only [setIn, List.mem_singleton] at h
    exact Or.inr h
  | cons hd t ih =>
    obtain ⟨v', x⟩ := hd
    simp only [setIn] at h
    split at h
    next hbeq =>
      rcases List.mem_cons.1 h with h1 | h1
      · have : v' = v := eq_of_beq hbeq
        subst this
        exact Or.inr h1
      · exact Or.inl (List.mem_cons.2 (Or.inr h1))
    next =>
      rcases List.mem_cons.1 h with h1 | h1
      · exact Or.inl (List.mem_cons.2 (Or.inl h1))
      · rcases ih h1 with h2 | h2
        · exact Or.inl (List.mem_cons.2 (Or.inr h2))
        · exact Or.inr h2

theorem mem_updatePkg (ps : Packages) (k : Json) (v : String) (vi : VersionInfo)
    (e : Json × Versions) (h : e ∈ updatePkg ps k v vi) :
    e ∈ ps ∨ ∃ vs0, (e.1, vs0) ∈ ps ∧ e.2 = setIn vs0 v vi := by
  induction ps with
  | nil => simp [updatePkg] at h
  | cons hd t ih =>
    obtain ⟨k', vs⟩ := hd
    simp only [updatePkg] at h
    split at h
    next =>
      rcases List.mem_cons.1 h with h1 | h1
      · subst h1
        exact Or.inr ⟨vs, List.mem_cons.2 (Or.inl rfl), rfl⟩
      · exact Or.inl (List.mem_cons.2 (Or.inr h1))
    next =>
      rcases List.mem_cons.1 h with h1 | h1
      · exact Or.inl (List.mem_cons.2 (Or.inl h1))
      · rcases ih h1 with h2 | ⟨vs0, h2, h3⟩
        · exact Or.inl (List.mem_cons.2 (Or.inr h2))
        · exact Or.inr ⟨vs0, List.mem_cons.2 (Or.inr h2), h3⟩

theorem jsonKeyEq_self (j : Json) (h : pyHashable j = true) : jsonKeyEq j j = true := by
  cases j <;> simp_all [pyHashable, jsonKeyEq]

theorem updatePkg_fresh (ps : Packages) (k : Json) (v : String) (vi : VersionInfo)
    (hk : jsonKeyEq k k = true) (hnc : containsKey ps k = false) :
    updatePkg (ps ++ [(k, [])]) k v vi = ps ++ [(k, [(v, vi)])] := by
  induction ps with
  | nil => simp [updatePkg, setIn, hk]
  | cons hd t ih =>
    obtain ⟨k', vs⟩ := hd
    simp only [containsKey, List.any_cons, Bool.or_eq_false_iff] at hnc
    simp only [List.cons_append, updatePkg, hnc.1, Bool.false_eq_true, if_false]
    rw [List.append_eq, ih hnc.2]

theorem processFile_inv (root : List DirEntry) (d : DirEntry) (hd : d ∈ root)
    (hdir : d.isDir = true) (hhid : strStartsWith d.name "." = false)
    (f : FileEntry) (hf : f ∈ d.files) (ps ps' : Packages)
    (hinv : ScanInv root ps) (h : processFile ps f = .ok ps') : ScanInv root ps' := by
  unfold processFile at h
  split at h
  next => injection h with h; subst h; exact hinv
  next hzip =>
    split at h
    next => injection h with h; subst h; exact hinv
    next hvpm =>
      split at h
      next => injection h with h; subst h; exact hinv
      next version hver =>
        split at h
        next => injection h with h; subst h; exact hinv
        next pdata hpi =>
          split at h
          next => injection h with h; subst h; exact hinv
          next kvs =>
            split at h
            next => injection h with h; subst h; exact hinv
            next hname =>
              split at h
              next => exact absurd h (by simp)
              next hhash =>
                injection h with h
                subst h
                have hzip' : strEndsWith f.name ".zip" = true := by simpa using hzip
                have hvpm' : strStartsWith f.name "vpm." = true := by simpa using hvpm
                have hname' : pyTruthy (pyGet kvs "name") = true := by simpa using hname
                have hhash' : pyHashable (pyGet kvs "name") = true := by simpa using hhash
                have hrec : RecordOk root version (mkVersionInfo kvs version f.name) :=
                  ⟨d, hd, hdir, hhid, f, hf, hzip', hvpm', kvs, hver, hpi, hname', rfl⟩
                by_cases hctn : containsKey ps (pyGet kvs "name") = true
                · rw [if_pos hctn]
                  intro e he
                  rcases mem_updatePkg _ _ _ _ e he with h1 | ⟨vs0, h1, h2⟩
                  · exact hinv e h1
                  · constructor
                    · rw [h2]; exact setIn_ne_nil _ _ _
                    · intro ve hve
                      rw [h2] at hve
                      rcases mem_setIn _ _ _ _ hve with h3 | h3
                      · exact ((hinv (e.1, vs0) h1).2 ve h3)
                      · rw [h3]; exact hrec
                · rw [if_neg hctn]
                  rw [updatePkg_fresh ps _ version _
                    (jsonKeyEq_self _ hhash') (Bool.not_eq_true _ ▸ Bool.of_not_eq_true hctn)]
                  intro e he
                  rcases List.mem_append.1 he with h1 | h1
                  · exact hinv e h1
                  · rw [List.mem_singleton] at h1
                    subst h1
                    constructor
                    · simp
                    · intro ve hve
                      rw [List.mem_singleton] at hve
                      rw [hve]
                      exact hrec
          next pd hnotnull hnotobj =>
            exact absurd h (by simp)

theorem foldl_processFile_inv (root : List DirEntry) (d : DirEntry) (hd : d ∈ root)
    (hdir : d.isDir = true) (hhid : strStartsWith d.name "." = false) :
    ∀ (files : List FileEntry), (∀ f ∈ files, f ∈ d.files) →
    ∀ ps ps', ScanInv root ps → files.foldlM processFile ps = .ok ps' →
    ScanInv root ps' := by
  intro files
  induction files with
  | nil =>
    intro _ ps ps' hinv h
    simp only [List.foldlM_nil] at h
    injection h with h
    subst h
    exact hinv
  | cons f fs ih =>
    intro hsub ps ps' hinv h
    rw [List.foldlM_cons] at h
    cases hpf : processFile ps f with
    | error e =>
      rw [hpf] at h
      exact Except.noConfusion h
    | ok p1 =>
      rw [hpf] at h
      have h1 : ScanInv root p1 :=
        processFile_inv root d hd hdir hhid f (hsub f (by simp)) ps p1 hinv hpf
      exact ih (fun g hg => hsub g (by simp [hg])) p1 ps' h1 h

theorem processDir_inv (root : List DirEntry) (d : DirEntry) (hd : d ∈ root)
    (ps ps' : Packages) (hinv : ScanInv root ps) (h : processDir ps d = .ok ps') :
    ScanInv root ps' := by
  unfold processDir at h
  split at h
  next => injection h with h; subst h; exact hinv
  next hdir =>
    split at h
    next => injection h with h; subst h; exact hinv
    next hhid =>
      have hdir' : d.isDir = true := by simpa using hdir
      have hhid' : strStartsWith d.name "." = false := by simpa using hhid
      exact foldl_processFile_inv root d hd hdir' hhid' d.files (fun f hf => hf) ps ps' hinv h

theorem foldl_processDir_inv (root : List DirEntry) :
    ∀ (ds : List DirEntry), (∀ d ∈ ds, d ∈ root) →
    ∀ ps ps', ScanInv root ps → ds.foldlM processDir ps = .ok ps' →
    ScanInv root ps' := by
  intro ds
  induction ds with
  | nil =>
    intro _ ps ps' hinv h
    simp only [List.foldlM_nil] at h
    injection h with h
    subst h
    exact hinv
  | cons d rest ih =>
    intro hsub ps ps' hinv h
    rw [List.foldlM_cons] at h
    cases hpd : processDir ps d with
    | error e =>
      rw [hpd] at h
      exact Except.noConfusion h
    | ok p1 =>
      rw [hpd] at h
      have h1 : ScanInv root p1 := processDir_inv root d (hsub d (by simp)) ps p1 hinv hpd
      exact ih (fun g hg => hsub g (by simp [hg])) p1 ps' h1 h

theorem scan_inv (root : List DirEntry) (ps : Packages)
    (h : scan_packages root = .ok ps) : ScanInv root ps := by
  have hbase : ScanInv root [] := by
    intro e he
    exact absurd he (by simp)
  exact foldl_processDir_inv root root (fun d hd => hd) [] ps hbase h

theorem lookup_name_mk (kvs : List (String × Json)) (v fn : String) :
    (mkVersionInfo kvs v fn).lookup "name" = some (pyGet kvs "name") := rfl

theorem lookup_displayName_mk (kvs : List (String × Json)) (v fn : String) :
    (mkVersionInfo kvs v fn).lookup "displayName" = some (pyGet kvs "displayName") := rfl

theorem lookup_version_mk (kvs : List (String × Json)) (v fn : String) :
    (mkVersionInfo kvs v fn).lookup "version" = some (.str v) := rfl

theorem lookup_unity_mk (kvs : List (String × Json)) (v fn : String) :
    (mkVersionInfo kvs v fn).lookup "unity" = some (pyGet kvs "unity") := rfl

theorem lookup_description_mk (kvs : List (String × Json)) (v fn : String) :
    (mkVersionInfo kvs v fn).lookup "description" = some (pyGet kvs "description") := rfl

theorem lookup_url_mk (kvs : List (String × Json)) (v fn : String) :
    (mkVersionInfo kvs v fn).lookup "url" = some (.str (downloadUrl kvs fn)) := rfl

theorem lookup_deps_mk_present (kvs : List (String × Json)) (v fn : String) (dv : Json)
    (h : kvs.lookup "vpmDependencies" = some dv) :
    (mkVersionInfo kvs v fn).lookup "vpmDependencies" = some dv := by
  unfold mkVersionInfo
  rw [h]
  rfl

theorem lookup_deps_mk_absent (kvs : List (String × Json)) (v fn : String)
    (h : kvs.lookup "vpmDependencies" = none) :
    (mkVersionInfo kvs v fn).lookup "vpmDependencies" = none := by
  unfold mkVersionInfo
  rw [h]
  cases ha : kvs.lookup "author" with
  | none => rfl
  | some av => rfl

theorem lookup_author_mk_present (kvs : List (String × Json)) (v fn : String) (av : Json)
    (h : kvs.lookup "author" = some av) :
    (mkVersionInfo kvs v fn).lookup "author" = some av := by
  unfold mkVersionInfo
  rw [h]
  cases hd : kvs.lookup "vpmDependencies" with
  | none => rfl
  | some dv => rfl

theorem lookup_author_mk_absent (kvs : List (String × Json)) (v fn : String)
    (h : kvs.lookup "author" = none) :
    (mkVersionInfo kvs v fn).lookup "author" = none := by
  unfold mkVersionInfo
  rw [h]
  cases hd : kvs.lookup "vpmDependencies" with
  | none => rfl
  | some dv => rfl

/-- C3: every Version Record in the emitted mapping carries, in its `version`
field, exactly the version string under which it is keyed, and that string is
the one the Version Extractor computed from the source archive's filename
(the record is built by `mkVersionInfo` from the extracted version, never
from a version field of the metadata). -/
theorem vpm_C3 (root : List DirEntry) (ps : Packages)
    (hscan : scan_packages root = .ok ps)
    (pk : Json) (vs : Versions) (hpk : (pk, vs) ∈ ps)
    (v : String) (vi : VersionInfo) (hv : (v, vi) ∈ vs) :
    vi.lookup "version" = some (.str v) ∧
    ∃ d f kvs, d ∈ root ∧ f ∈ d.files ∧
      extract_version_from_filename f.name = some v ∧
      extract_package_info f.archive = some (.obj kvs) ∧
      vi = mkVersionInfo kvs v f.name := by
  obtain ⟨d, hd, _, _, f, hf, _, _, kvs, hver, hpi, _, hvi⟩ :=
    (scan_inv root ps hscan (pk, vs) hpk).2 (v, vi) hv
  have hvi' : vi = mkVersionInfo kvs v f.name := hvi
  refine ⟨?_, d, f, kvs, hd, hf, hver, hpi, hvi'⟩
  rw [hvi']
  exact lookup_version_mk kvs v f.name

/-- Witness for C3 on the one-package tree `coolDir`. -/
theorem vpm_C3_witness :
    scan_packages [coolDir] = .ok coolPkgs ∧
    (coolVi.lookup "version" = some (.str "1.2.3") ∧
     ∃ d f kvs, d ∈ [coolDir] ∧ f ∈ d.files ∧
       extract_version_from_filename f.name = some "1.2.3" ∧
       extract_package_info f.archive = some (.obj kvs) ∧
       coolVi = mkVersionInfo kvs "1.2.3" f.name) :=
  ⟨rfl,
   vpm_C3 [coolDir] coolPkgs rfl (.str "com.example.cool") [("1.2.3", coolVi)]
     (List.mem_singleton.mpr rfl) "1.2.3" coolVi (List.mem_singleton.mpr rfl)⟩

/-- C10: every package entry of the emitted mapping has a non-empty versions
dict — a package entry is only ever created together with the insertion of a
Version Record. -/
theorem vpm_C10 (root : List DirEntry) (ps : Packages)
    (hscan : scan_packages root = .ok ps)
    (pk : Json) (vs : Versions) (hmem : (pk, vs) ∈ ps) : vs ≠ [] :=
  (scan_inv root ps hscan (pk, vs) hmem).1

/-- Witness for C10 on the one-package tree `coolDir`. -/
theorem vpm_C10_witness :
    scan_packages [coolDir] = .ok coolPkgs ∧
    (.str "com.example.cool", [("1.2.3", coolVi)]) ∈ coolPkgs ∧
    [("1.2.3", coolVi)] ≠ ([] : Versions) :=
  ⟨rfl, List.mem_singleton.mpr rfl,
   vpm_C10 [coolDir] coolPkgs rfl (.str "com.example.cool") [("1.2.3", coolVi)]
     (List.mem_singleton.mpr rfl)⟩

/-- C5: the `url` field of every emitted Version Record is the fixed template
with `str(...)` of the metadata's `displayName` value and the literal archive
filename concatenated in textually (no URL-encoding: `pyStr` on a string is
the identity). -/
theorem vpm_C5 (root : List DirEntry) (ps : Packages)
    (hscan : scan_packages root = .ok ps)
    (pk : Json) (vs : Versions) (hpk : (pk, vs) ∈ ps)
    (v : String) (vi : VersionInfo) (hv : (v, vi) ∈ vs) :
    ∃ d f kvs, d ∈ root ∧ f ∈ d.files ∧
      extract_package_info f.archive = some (.obj kvs) ∧
      vi.lookup "url" =
        some (.str (urlBase ++ pyStr (pyGet kvs "displayName") ++ "/" ++ f.name)) := by
  obtain ⟨d, hd, _, _, f, hf, _, _, kvs, _, hpi, _, hvi⟩ :=
    (scan_inv root ps hscan (pk, vs) hpk).2 (v, vi) hv
  have hvi' : vi = mkVersionInfo kvs v f.name := hvi
  refine ⟨d, f, kvs, hd, hf, hpi, ?_⟩
  rw [hvi']
  exact lookup_url_mk kvs v f.name

/-- Witness for C5 on `spicyDir`, whose display name contains URL-special
characters that appear verbatim in the emitted URL. -/
theorem vpm_C5_witness :
    scan_packages [spicyDir] = .ok spicyPkgs ∧
    spicyVi.lookup "url" =
      some (.str "https://raw.githubusercontent.com/cielo-h/vpmRepo/master/My Plugin?& #1/vpm.myrepo.spicy-2.0.1.zip") ∧
    ∃ d f kvs, d ∈ [spicyDir] ∧ f ∈ d.files ∧
      extract_package_info f.archive = some (.obj kvs) ∧
      spicyVi.lookup "url" =
        some (.str (urlBase ++ pyStr (pyGet kvs "displayName") ++ "/" ++ f.name)) :=
  ⟨rfl, rfl,
   vpm_C5 [spicyDir] spicyPkgs rfl (.str "com.example.spicy") [("2.0.1", spicyVi)]
     (List.mem_singleton.mpr rfl) "2.0.1" spicyVi (List.mem_singleton.mpr rfl)⟩

/-- C8: for every emitted Version Record, when the source metadata lacks the
`vpmDependencies` (resp. `author`) key, the record has no such key at all;
when the key is present its value is copied unchanged. -/
theorem vpm_C8 (root : List DirEntry) (ps : Packages)
    (hscan : scan_packages root = .ok ps)
    (pk : Json) (vs : Versions) (hpk : (pk, vs) ∈ ps)
    (v : String) (vi : VersionInfo) (hv : (v, vi) ∈ vs) :
    ∃ d f kvs, d ∈ root ∧ f ∈ d.files ∧
      extract_package_info f.archive = some (.obj kvs) ∧
      vi = mkVersionInfo kvs v f.name ∧
      (kvs.lookup "vpmDependencies" = none → vi.lookup "vpmDependencies" = none) ∧
      (∀ dv, kvs.lookup "vpmDependencies" = some dv → vi.lookup "vpmDependencies" = some dv) ∧
      (kvs.lookup "author" = none → vi.lookup "author" = none) ∧
      (∀ av, kvs.lookup "author" = some av → vi.lookup "author" = some av) := by
  obtain ⟨d, hd, _, _, f, hf, _, _, kvs, _, hpi, _, hvi⟩ :=
    (scan_inv root ps hscan (pk, vs) hpk).2 (v, vi) hv
  have hvi' : vi = mkVersionInfo kvs v f.name := hvi
  refine ⟨d, f, kvs, hd, hf, hpi, hvi', ?_, ?_, ?_, ?_⟩
  · intro h
    rw [hvi']
    exact lookup_deps_mk_absent kvs v f.name h
  · intro dv h
    rw [hvi']
    exact lookup_deps_mk_present kvs v f.name dv h
  · intro h
    rw [hvi']
    exact lookup_author_mk_absent kvs v f.name h
  · intro av h
    rw [hvi']
    exact lookup_author_mk_present kvs v f.name av h

/-- Witness for C8 on `spicyDir`, whose metadata has `vpmDependencies` but no
`author`. -/
theorem vpm_C8_witness :
    scan_packages [spicyDir] = .ok spicyPkgs ∧
    spicyVi.lookup "author" = none ∧
    spicyVi.lookup "vpmDependencies" = some (.obj [("com.example.base", .str "1.0.0")]) ∧
    ∃ d f kvs, d ∈ [spicyDir] ∧ f ∈ d.files ∧
      extract_package_info f.archive = some (.obj kvs) ∧
      spicyVi = mkVersionInfo kvs "2.0.1" f.name ∧
      (kvs.lookup "vpmDependencies" = none → spicyVi.lookup "vpmDependencies" = none) ∧
      (∀ dv, kvs.lookup "vpmDependencies" = some dv → spicyVi.lookup "vpmDependencies" = some dv) ∧
      (kvs.lookup "author" = none → spicyVi.lookup "author" = none) ∧
      (∀ av, kvs.lookup "author" = some av → spicyVi.lookup "author" = some av) :=
  ⟨rfl, rfl, rfl,
   vpm_C8 [spicyDir] spicyPkgs rfl (.str "com.example.spicy") [("2.0.1", spicyVi)]
     (List.mem_singleton.mpr rfl) "2.0.1" spicyVi (List.mem_singleton.mpr rfl)⟩

theorem processFile_skip (ps : Packages) (f : FileEntry) (h : qualifies f = false) :
    processFile ps f = .ok ps := by
  unfold qualifies at h
  cases he : strEndsWith f.name ".zip" with
  | false =>
    unfold processFile
    rw [he]
    rfl
  | true =>
    rw [he] at h
    simp only [Bool.true_and] at h
    unfold processFile
    rw [he, h]
    rfl

theorem foldl_files_filter (files : List FileEntry) :
    ∀ ps : Packages,
      (files.filter qualifies).foldlM processFile ps = files.foldlM processFile ps := by
  induction files with
  | nil => intro ps; rfl
  | cons f fs ih =>
    intro ps
    cases hq : qualifies f with
    | true =>
      rw [List.filter_cons_of_pos hq, List.foldlM_cons, List.foldlM_cons]
      cases hpf : processFile ps f with
      | error e => rfl
      | ok p1 => exact ih p1
    | false =>
      rw [List.filter_cons_of_neg (by simp [hq]), List.foldlM_cons, processFile_skip ps f hq]
      exact ih ps

theorem processDir_skip (ps : Packages) (d : DirEntry)
    (h : (d.isDir && !(strStartsWith d.name ".")) = false) : processDir ps d = .ok ps := by
  cases hdir : d.isDir with
  | false =>
    unfold processDir
    rw [hdir]
    rfl
  | true =>
    rw [hdir] at h
    simp only [Bool.true_and, Bool.not_eq_false'] at h
    unfold processDir
    rw [hdir, h]
    rfl

theorem processDir_keep (ps : Packages) (d : DirEntry)
    (hdir : d.isDir = true) (hhid : strStartsWith d.name "." = false) :
    processDir ps ⟨d.name, d.isDir, d.files.filter qualifies⟩ = processDir ps d := by
  unfold processDir
  simp only [hdir, hhid, Bool.not_true, Bool.false_eq_true, if_false]
  exact foldl_files_filter d.files ps

theorem scan_prune_aux (root : List DirEntry) :
    ∀ ps : Packages,
      (pruneTree root).foldlM processDir ps = root.foldlM processDir ps := by
  induction root with
  | nil => intro ps; rfl
  | cons d rest ih =>
    intro ps
    cases hk : (d.isDir && !(strStartsWith d.name ".")) with
    | true =>
      have hcons : pruneTree (d :: rest) =
          (⟨d.name, d.isDir, d.files.filter qualifies⟩ : DirEntry) :: pruneTree rest := by
        simp [pruneTree, hk]
      obtain ⟨hdir, hhid⟩ : d.isDir = true ∧ strStartsWith d.name "." = false := by
        have := Bool.and_eq_true_iff.1 hk
        exact ⟨this.1, by simpa using this.2⟩
      rw [hcons, List.foldlM_cons, List.foldlM_cons, processDir_keep ps d hdir hhid]
      cases hpd : processDir ps d with
      | error e => rfl
      | ok p1 => exact ih p1
    | false =>
      have hskip : pruneTree (d :: rest) = pruneTree rest := by
        simp [pruneTree, hk]
      rw [hskip, List.foldlM_cons, processDir_skip ps d hk]
      exact ih ps

/-- C7: files whose name does not both start with `vpm.` and end with `.zip`
contribute nothing to the output, and no file inside a hidden or non-directory
entry of the scan root is ever represented: scanning the pruned tree (hidden
and non-directories removed, non-qualifying files removed) produces exactly
the same result as scanning the original tree. -/
theorem vpm_C7 (root : List DirEntry) :
    scan_packages (pruneTree root) = scan_packages root :=
  scan_prune_aux root []

theorem processDir_run (ps : Packages) (dname : String) (files : List FileEntry)
    (hdn : strStartsWith dname "." = false) :
    processDir ps ⟨dname, true, files⟩ = files.foldlM processFile ps := by
  unfold processDir
  simp only [hdn, Bool.not_true, Bool.false_eq_true, if_false]

theorem processFile_qualified (ps : Packages) (f : FileEntry) (version : String)
    (kvs : List (String × Json)) (n : String)
    (hz : strEndsWith f.name ".zip" = true)
    (hv : strStartsWith f.name "vpm." = true)
    (hver : extract_version_from_filename f.name = some version)
    (hpi : extract_package_info f.archive = some (.obj kvs))
    (hname : kvs.lookup "name" = some (.str n)) (hn : n ≠ "") :
    processFile ps f = .ok (updatePkg
      (if containsKey ps (.str n) then ps else ps ++ [(.str n, [])])
      (.str n) version (mkVersionInfo kvs version f.name)) := by
  have hget : pyGet kvs "name" = .str n := by simp [pyGet, hname]
  have hbeq : (n == "") = false := beq_eq_false_iff_ne.mpr hn
  unfold processFile
  rw [hz, hv, hver, hpi]
  simp [hget, pyTruthy, pyHashable, hbeq]

/-- C9: a metadata object missing `displayName`, `unity` or `description` is
not skipped: the Version Record is still emitted, with `null` for each such
missing field, and a missing `displayName` yields a download URL containing
the literal text `None` in the plugin-name position. -/
theorem vpm_C9 (dname : String) (f : FileEntry) (v n : String)
    (kvs : List (String × Json))
    (hdn : strStartsWith dname "." = false)
    (hz : strEndsWith f.name ".zip" = true)
    (hv4 : strStartsWith f.name "vpm." = true)
    (hver : extract_version_from_filename f.name = some v)
    (hpi : extract_package_info f.archive = some (.obj kvs))
    (hname : kvs.lookup "name" = some (.str n)) (hn : n ≠ "") :
    ∃ vi, scan_packages [⟨dname, true, [f]⟩] = .ok [(.str n, [(v, vi)])] ∧
      (kvs.lookup "displayName" = none →
        vi.lookup "displayName" = some .null ∧
        vi.lookup "url" = some (.str (urlBase ++ "None/" ++ f.name))) ∧
      (kvs.lookup "unity" = none → vi.lookup "unity" = some .null) ∧
      (kvs.lookup "description" = none → vi.lookup "description" = some .null) := by
  refine ⟨mkVersionInfo kvs v f.name, ?_, ?_, ?_, ?_⟩
  · unfold scan_packages
    rw [List.foldlM_cons, processDir_run [] dname [f] hdn, List.foldlM_cons,
      processFile_qualified [] f v kvs n hz hv4 hver hpi hname hn]
    have hins : updatePkg
        (if containsKey [] (.str n) then [] else [] ++ [((.str n : Json), ([] : Versions))])
        (.str n) v (mkVersionInfo kvs v f.name) =
        [(.str n, [(v, mkVersionInfo kvs v f.name)])] := by
      simp [containsKey, updatePkg, setIn, jsonKeyEq]
    rw [hins]
    rfl
  · intro h
    constructor
    · rw [lookup_displayName_mk]
      simp [pyGet, h]
    · rw [lookup_url_mk]
      have hdu : downloadUrl kvs f.name = urlBase ++ "None/" ++ f.name := by
        unfold downloadUrl
        rw [show pyGet kvs "displayName" = .null from by simp [pyGet, h]]
        rfl
      rw [hdu]
  · intro h
    rw [lookup_unity_mk]
    simp [pyGet, h]
  · intro h
    rw [lookup_description_mk]
    simp [pyGet, h]

/-- Witness for C9: a metadata object carrying only a `name` still yields an
emitted record, with nulls and a `None` URL component. -/
theorem vpm_C9_witness :
    ∃ vi, scan_packages [⟨"minimal", true,
        [⟨"vpm.myrepo.min-0.1.0.zip",
          some [⟨"package.json", some (.obj [("name", .str "com.example.min")])⟩]⟩]⟩] =
      .ok [(.str "com.example.min", [("0.1.0", vi)])] ∧
      (([("name", (.str "com.example.min" : Json))] : List (String × Json)).lookup "displayName" = none →
        vi.lookup "displayName" = some .null ∧
        vi.lookup "url" = some (.str (urlBase ++ "None/" ++ "vpm.myrepo.min-0.1.0.zip"))) ∧
      (([("name", (.str "com.example.min" : Json))] : List (String × Json)).lookup "unity" = none →
        vi.lookup "unity" = some .null) ∧
      (([("name", (.str "com.example.min" : Json))] : List (String × Json)).lookup "description" = none →
        vi.lookup "description" = some .null) :=
  vpm_C9 "minimal"
    ⟨"vpm.myrepo.min-0.1.0.zip",
      some [⟨"package.json", some (.obj [("name", .str "com.example.min")])⟩]⟩
    "0.1.0" "com.example.min" [("name", .str "com.example.min")]
    rfl rfl rfl rfl rfl rfl (by decide)

theorem except_bind_ok (p : Packages) (k : Packages → Except PyExn Packages) :
    (Except.ok p >>= k : Except PyExn Packages) = k p := rfl

/-- C6: scanning a directory holding three qualifying archives that all
declare the same package name — the first with version `v0`, the second and
third with the same version `v ≠ v0` — produces a single package entry whose
versions dict holds exactly two entries: the `v0` record from the first
archive (unaffected by the later insertions) and the `v` record from the
*last* archive processed (last-seen-wins overwrite of the second archive's
record), demonstrating both that distinct versions coexist under one package
key and that a duplicate (name, version) pair overwrites only its own
entry. -/
theorem vpm_C6 (dname : String) (f0 f1 f2 : FileEntry) (v0 v : String)
    (m0 m1 m2 : List (String × Json)) (n : String)
    (hdn : strStartsWith dname "." = false)
    (hz0 : strEndsWith f0.name ".zip" = true)
    (hs0 : strStartsWith f0.name "vpm." = true)
    (hver0 : extract_version_from_filename f0.name = some v0)
    (hpi0 : extract_package_info f0.archive = some (.obj m0))
    (hn0 : m0.lookup "name" = some (.str n))
    (hz1 : strEndsWith f1.name ".zip" = true)
    (hs1 : strStartsWith f1.name "vpm." = true)
    (hver1 : extract_version_from_filename f1.name = some v)
    (hpi1 : extract_package_info f1.archive = some (.obj m1))
    (hn1 : m1.lookup "name" = some (.str n))
    (hz2 : strEndsWith f2.name ".zip" = true)
    (hs2 : strStartsWith f2.name "vpm." = true)
    (hver2 : extract_version_from_filename f2.name = some v)
    (hpi2 : extract_package_info f2.archive = some (.obj m2))
    (hn2 : m2.lookup "name" = some (.str n))
    (hn : n ≠ "") (hvne : v0 ≠ v) :
    scan_packages [⟨dname, true, [f0, f1, f2]⟩] =
      .ok [(.str n, [(v0, mkVersionInfo m0 v0 f0.name),
                     (v, mkVersionInfo m2 v f2.name)])] := by
  have hv0v : (v0 == v) = false := beq_eq_false_iff_ne.mpr hvne
  unfold scan_packages
  rw [List.foldlM_cons, processDir_run [] dname [f0, f1, f2] hdn, List.foldlM_cons,
    processFile_qualified [] f0 v0 m0 n hz0 hs0 hver0 hpi0 hn0 hn]
  have s1 : updatePkg
      (if containsKey [] (.str n) then [] else [] ++ [((.str n : Json), ([] : Versions))])
      (.str n) v0 (mkVersionInfo m0 v0 f0.name) =
      [(.str n, [(v0, mkVersionInfo m0 v0 f0.name)])] := by
    simp [containsKey, updatePkg, setIn, jsonKeyEq]
  rw [s1, except_bind_ok, List.foldlM_cons,
    processFile_qualified _ f1 v m1 n hz1 hs1 hver1 hpi1 hn1 hn]
  have s2 : updatePkg
      (if containsKey [(.str n, [(v0, mkVersionInfo m0 v0 f0.name)])] (.str n)
       then [((.str n : Json), [(v0, mkVersionInfo m0 v0 f0.name)])]
       else [(.str n, [(v0, mkVersionInfo m0 v0 f0.name)])] ++ [((.str n : Json), ([] : Versions))])
      (.str n) v (mkVersionInfo m1 v f1.name) =
      [(.str n, [(v0, mkVersionInfo m0 v0 f0.name), (v, mkVersionInfo m1 v f1.name)])] := by
    simp [containsKey, updatePkg, setIn, jsonKeyEq, hv0v]
  rw [s2, except_bind_ok, List.foldlM_cons,
    processFile_qualified _ f2 v m2 n hz2 hs2 hver2 hpi2 hn2 hn]
  have s3 : updatePkg
      (if containsKey
          [(.str n, [(v0, mkVersionInfo m0 v0 f0.name), (v, mkVersionInfo m1 v f1.name)])]
          (.str n)
       then [((.str n : Json), [(v0, mkVersionInfo m0 v0 f0.name), (v, mkVersionInfo m1 v f1.name)])]
       else [(.str n, [(v0, mkVersionInfo m0 v0 f0.name), (v, mkVersionInfo m1 v f1.name)])] ++
         [((.str n : Json), ([] : Versions))])
      (.str n) v (mkVersionInfo m2 v f2.name) =
      [(.str n, [(v0, mkVersionInfo m0 v0 f0.name), (v, mkVersionInfo m2 v f2.name)])] := by
    simp [containsKey, updatePkg, setIn, jsonKeyEq, hv0v]
  rw [s3]
  rfl

/-- Witness for C6: three concrete archives for one package — versions
`1.0.0`, `1.1.0`, `1.1.0` — yield the `1.0.0` record from the first archive
and the `1.1.0` record from the last archive only. -/
theorem vpm_C6_witness :
    scan_packages [⟨"alpha", true,
      [⟨"vpm.r.pkg-1.0.0.zip", some [⟨"package.json",
          some (.obj [("name", .str "com.example.multi"), ("description", .str "first")])⟩]⟩,
       ⟨"vpm.r.pkg-1.1.0.zip", some [⟨"package.json",
          some (.obj [("name", .str "com.example.multi"), ("description", .str "old build")])⟩]⟩,
       ⟨"vpm.r.pkg2-1.1.0.zip", some [⟨"package.json",
          some (.obj [("name", .str "com.example.multi"), ("description", .str "new build")])⟩]⟩]⟩] =
      .ok [(.str "com.example.multi",
            [("1.0.0",
              mkVersionInfo [("name", .str "com.example.multi"), ("description", .str "first")]
                "1.0.0" "vpm.r.pkg-1.0.0.zip"),
             ("1.1.0",
              mkVersionInfo [("name", .str "com.example.multi"), ("description", .str "new build")]
                "1.1.0" "vpm.r.pkg2-1.1.0.zip")])] :=
  vpm_C6 "alpha"
    ⟨"vpm.r.pkg-1.0.0.zip", some [⟨"package.json",
        some (.obj [("name", .str "com.example.multi"), ("description", .str "first")])⟩]⟩
    ⟨"vpm.r.pkg-1.1.0.zip", some [⟨"package.json",
        some (.obj [("name", .str "com.example.multi"), ("description", .str "old build")])⟩]⟩
    ⟨"vpm.r.pkg2-1.1.0.zip", some [⟨"package.json",
        some (.obj [("name", .str "com.example.multi"), ("description", .str "new build")])⟩]⟩
    "1.0.0" "1.1.0"
    [("name", .str "com.example.multi"), ("description", .str "first")]
    [("name", .str "com.example.multi"), ("description", .str "old build")]
    [("name", .str "com.example.multi"), ("description", .str "new build")]
    "com.example.multi"
    rfl rfl rfl rfl rfl rfl rfl rfl rfl rfl rfl rfl rfl rfl rfl rfl
    (by decide) (by decide)

/-- C1 (refuting evaluation): a metadata file whose content is the valid JSON
document `[1]` — a per-file condition the spec's error taxonomy classifies as
recoverable — makes `scan_packages` raise `AttributeError` (the source calls
`package_info.get('name')` on the list returned by `json.loads` with nothing
catching it), so the error propagates past the Package Scanner instead of
being logged and skipped. -/
theorem vpm_C1_crash :
    scan_packages [⟨"plugin", true,
      [⟨"vpm.a.b-1.0.0.zip", some [⟨"package.json", some (.arr [.num 1])⟩]⟩]⟩] =
      .error .attributeError := rfl
